import Mathlib

/-!
Verification of the rapidcheck binary serialization codec
(`include/rapidcheck/detail/Serialization.h`).

The header declares a fixed-width little-endian codec (`serialize` /
`deserialize`), a 7-bit-group compact varint codec (`serializeCompact` /
`deserializeCompact`), range overloads of the compact codec that prefix a
compact-encoded element count, and a `SerializationException` error type.
The implementation file `Serialization.hpp` included by the header is not
part of the sources, so the function bodies below are modelled from the
specification's description of the algorithms (little-endian byte layout,
7-bit groups with a continuation bit, the Truncated / Overflow failure
modes, and the maximum group-count bound `ceil(W/7) + 1`).

Machine integers are modelled by their bit patterns: a value of an
integral type of bit width `W` is a natural number `< 2 ^ W`, and a byte
is a natural number `< 256`.  Byte streams are `List Nat`; a read cursor
is modelled by returning the unconsumed suffix of the input alongside the
decoded value, and decoding failure by `Except`.
-/

namespace rc.detail

/-- The two decode failure modes of the codec: `Truncated` (input exhausted
before the format was complete) and `Overflow` (a compact value does not fit
the target type, or the group-count bound was exceeded). -/
inductive SerError where
  | Truncated : SerError
  | Overflow : SerError
deriving DecidableEq

/-- Modelled from the spec: `SerializationException` (its member bodies live
in the implementation file, absent from the sources).  It stores the
constructor's message string. -/
structure SerializationException where
  m_msg : String
deriving DecidableEq

/-- Modelled from the spec: `SerializationException::message` returns the
stored message. -/
def SerializationException.message (e : SerializationException) : String :=
  e.m_msg

/-- Modelled from the spec: `SerializationException::what` returns the
stored message as a C string. -/
def SerializationException.what (e : SerializationException) : String :=
  e.m_msg

/-- Modelled from the spec: the body of `serialize` for an integral type of
byte width `W` (the implementation file is absent from the sources).  Writes
exactly `W` bytes, least-significant byte first, byte `i` holding bits
`[8i, 8i+8)` of the value. -/
def serialize : Nat → Nat → List Nat
  | 0, _ => []
  | W + 1, v => v % 256 :: serialize W (v / 256)

/-- The value reassembled from a little-endian byte list:
`Σ byte[i] * 256 ^ i`. -/
def leValue : List Nat → Nat
  | [] => 0
  | b :: bs => b + 256 * leValue bs

/-- Modelled from the spec: the body of `deserialize` for an integral type of
byte width `W`.  Fails with `Truncated` if fewer than `W` bytes remain;
otherwise reconstructs the value from the first `W` bytes in little-endian
order and returns it with the unconsumed rest of the input. -/
def deserialize (W : Nat) (input : List Nat) : Except SerError (Nat × List Nat) :=
  if input.length < W then .error .Truncated
  else .ok (leValue (input.take W), input.drop W)

/-- Modelled from the spec: the body of the single-value `serializeCompact`
on the value's (unsigned) bit pattern.  Emits the low 7 bits of the
remaining value in each byte with the continuation bit (bit 7) set whenever
more bits remain, and always emits at least one byte. -/
def serializeCompact (v : Nat) : List Nat :=
  if v < 128 then [v]
  else (v % 128 + 128) :: serializeCompact (v / 128)
termination_by v
decreasing_by exact Nat.div_lt_self (by omega) (by omega)

/-- The maximum number of 7-bit groups the compact decoder accepts for a
target type of bit width `W`: `ceil(W/7) + 1`. -/
def maxCompactGroups (W : Nat) : Nat :=
  (W + 6) / 7 + 1

/-- Modelled from the spec: the group-reading loop of the single-value
compact decoder.  `fuel` counts the groups still allowed by the
group-count bound (reaching a further group with no fuel left is an
`Overflow`), `shift` is the bit position of the next payload group, and
`acc` the accumulator.  A byte with the continuation bit clear ends the
value; the accumulated value is then checked against the target width `W`. -/
def readGroups (W : Nat) : Nat → List Nat → Nat → Nat → Except SerError (Nat × List Nat)
  | 0, _, _, _ => .error .Overflow
  | _ + 1, [], _, _ => .error .Truncated
  | fuel + 1, b :: rest, shift, acc =>
    if b < 128 then
      if acc + b % 128 * 2 ^ shift < 2 ^ W then .ok (acc + b % 128 * 2 ^ shift, rest)
      else .error .Overflow
    else
      readGroups W fuel rest (shift + 7) (acc + b % 128 * 2 ^ shift)

/-- Modelled from the spec: the body of the single-value
`deserializeCompact` for a target type of bit width `W`. -/
def deserializeCompact (W : Nat) (input : List Nat) : Except SerError (Nat × List Nat) :=
  readGroups W (maxCompactGroups W) input 0 0

/-- The value the compact decoder accumulates over a byte stream:
`Σ (byte[i] mod 128) * 2 ^ (7 i)`. -/
def compactValue : List Nat → Nat
  | [] => 0
  | b :: bs => b % 128 + 128 * compactValue bs

/-- Compact encoding of each element of a list, concatenated in order. -/
def serializeElems : List Nat → List Nat
  | [] => []
  | x :: xs => serializeCompact x ++ serializeElems xs

/-- Modelled from the spec: the range overload of `serializeCompact`.
Writes the compact-encoded element count followed by each element
compact-encoded, in order. -/
def serializeCompactRange (l : List Nat) : List Nat :=
  serializeCompact l.length ++ serializeElems l

/-- Modelled from the spec: decoding of `n` compact-encoded elements of bit
width `W` in sequence, as used by the range overload of
`deserializeCompact`. -/
def deserializeElems (W : Nat) : Nat → List Nat → Except SerError (List Nat × List Nat)
  | 0, input => .ok ([], input)
  | n + 1, input =>
    match deserializeCompact W input with
    | .error e => .error e
    | .ok (v, rest) =>
      match deserializeElems W n rest with
      | .error e => .error e
      | .ok (vs, rest') => .ok (v :: vs, rest')

/-- Modelled from the spec: the range overload of `deserializeCompact` for
elements of bit width `W`.  Decodes the compact length prefix (a 64-bit
size value), then that many compact-encoded elements, returning the decoded
list and the unconsumed rest of the input. -/
def deserializeCompactRange (W : Nat) (input : List Nat) :
    Except SerError (List Nat × List Nat) :=
  match deserializeCompact 64 input with
  | .error e => .error e
  | .ok (n, rest) => deserializeElems W n rest

/-! ### Helper lemmas -/

/-- The compact encoder always emits at least one byte. -/
theorem serializeCompact_length_pos (v : Nat) : 0 < (serializeCompact v).length := by
  rw [serializeCompact]
  split <;> simp

/-- Running the group-reading loop on a compact encoding followed by `rest`
consumes exactly the encoding and adds the encoded value, shifted into
position, to the accumulator. -/
theorem readGroups_serializeCompact (W : Nat) :
    ∀ fuel v shift acc (rest : List Nat),
      (serializeCompact v).length ≤ fuel →
      acc + v * 2 ^ shift < 2 ^ W →
      readGroups W fuel (serializeCompact v ++ rest) shift acc =
        .ok (acc + v * 2 ^ shift, rest) := by
  intro fuel
  induction fuel with
  | zero =>
    intro v shift acc rest hlen _
    have := serializeCompact_length_pos v
    omega
  | succ f ih =>
    intro v shift acc rest hlen hacc
    rw [serializeCompact] at hlen ⊢
    by_cases hv : v < 128
    · rw [if_pos hv]
      show readGroups W (f + 1) (v :: rest) shift acc = _
      rw [readGroups]
      simp only [Nat.mod_eq_of_lt hv]
      rw [if_pos hv, if_pos hacc]
    · rw [if_neg hv] at hlen ⊢
      show readGroups W (f + 1) ((v % 128 + 128) :: (serializeCompact (v / 128) ++ rest))
          shift acc = _
      rw [readGroups]
      have hb : ¬ (v % 128 + 128 < 128) := by omega
      rw [if_neg hb]
      have hmod : (v % 128 + 128) % 128 = v % 128 := by omega
      have hpow : 2 ^ (shift + 7) = 2 ^ shift * 128 := by rw [pow_add]; norm_num
      have hsplit : v % 128 + 128 * (v / 128) = v := Nat.mod_add_div v 128
      have hkey : acc + v % 128 * 2 ^ shift + v / 128 * 2 ^ (shift + 7) =
          acc + v * 2 ^ shift := by
        have hv2 : v * 2 ^ shift = v % 128 * 2 ^ shift + v / 128 * (2 ^ shift * 128) := by
          conv_lhs => rw [← hsplit]
          ring
        rw [hpow, hv2]; ring
      have hlen' : (serializeCompact (v / 128)).length ≤ f := by
        simpa using hlen
      have hacc' : acc + v % 128 * 2 ^ shift + v / 128 * 2 ^ (shift + 7) < 2 ^ W := by
        rw [hkey]; exact hacc
      simp only [hmod]
      rw [ih (v / 128) (shift + 7) (acc + v % 128 * 2 ^ shift) rest hlen' hacc', hkey]

/-- A value below `2 ^ (7 k)` compact-encodes into at most `k + 1` bytes. -/
theorem serializeCompact_length_le :
    ∀ k v, v < 2 ^ (7 * k) → (serializeCompact v).length ≤ k + 1 := by
  intro k
  induction k with
  | zero =>
    intro v hv
    interval_cases v
    rw [serializeCompact]
    norm_num
  | succ k ih =>
    intro v hv
    rw [serializeCompact]
    by_cases h : v < 128
    · rw [if_pos h]; simp
    · rw [if_neg h]
      have hdiv : v / 128 < 2 ^ (7 * k) := by
        rw [Nat.div_lt_iff_lt_mul (by norm_num)]
        calc v < 2 ^ (7 * (k + 1)) := hv
          _ = 2 ^ (7 * k) * 128 := by rw [Nat.mul_succ, pow_add]; norm_num
      have := ih (v / 128) hdiv
      simpa using this

/-- A value that fits in `W` bits compact-encodes into at most
`maxCompactGroups W` bytes. -/
theorem serializeCompact_length_le_maxGroups (W v : Nat) (h : v < 2 ^ W) :
    (serializeCompact v).length ≤ maxCompactGroups W := by
  have h7 : W ≤ 7 * ((W + 6) / 7) := by omega
  have : v < 2 ^ (7 * ((W + 6) / 7)) :=
    lt_of_lt_of_le h (Nat.pow_le_pow_right (by norm_num) h7)
  exact serializeCompact_length_le ((W + 6) / 7) v this

/-- Single-value compact round trip, with an arbitrary unconsumed suffix. -/
theorem deserializeCompact_serializeCompact (W v : Nat) (rest : List Nat)
    (h : v < 2 ^ W) :
    deserializeCompact W (serializeCompact v ++ rest) = .ok (v, rest) := by
  have := readGroups_serializeCompact W (maxCompactGroups W) v 0 0 rest
    (serializeCompact_length_le_maxGroups W v h) (by simpa using h)
  simpa [deserializeCompact] using this

/-! ### Claim theorems -/

/-- C1: for every integral type of bit width `W` and every value (bit
pattern) `v` representable in `W` bits, decoding the compact encoding of
`v` succeeds and yields `v` with no unconsumed bytes. -/
theorem compact_roundtrip (W v : Nat) (h : v < 2 ^ W) :
    deserializeCompact W (serializeCompact v) = .ok (v, []) := by
  have := deserializeCompact_serializeCompact W v [] h
  simpa using this

/-- Witness for C1 at `W = 32`, `v = 300`. -/
theorem compact_roundtrip_witness :
    300 < 2 ^ 32 ∧ rc.detail.deserializeCompact 32 (rc.detail.serializeCompact 300) =
      .ok (300, []) :=
  ⟨by norm_num, compact_roundtrip 32 300 (by norm_num)⟩

/-- The fixed-width encoder emits exactly `W` bytes. -/
theorem serialize_length : ∀ W v, (serialize W v).length = W := by
  intro W
  induction W with
  | zero => intro v; rfl
  | succ W ih => intro v; simp [serialize, ih]

/-- Reassembling the little-endian bytes of a value that fits in `W` bytes
gives the value back. -/
theorem leValue_serialize : ∀ W v, v < 2 ^ (8 * W) → leValue (serialize W v) = v := by
  intro W
  induction W with
  | zero =>
    intro v hv
    interval_cases v
    rfl
  | succ W ih =>
    intro v hv
    have hdiv : v / 256 < 2 ^ (8 * W) := by
      rw [Nat.div_lt_iff_lt_mul (by norm_num)]
      calc v < 2 ^ (8 * (W + 1)) := hv
        _ = 2 ^ (8 * W) * 256 := by rw [Nat.mul_succ, pow_add]; norm_num
    rw [serialize]
    show (v % 256) + 256 * leValue (serialize W (v / 256)) = v
    rw [ih (v / 256) hdiv]
    omega

/-- C2: for every integral type of byte width `W`, every value (bit
pattern) `v` of that type and any trailing bytes, decoding the fixed-width
encoding of `v` succeeds, yields `v`, and consumes exactly the `W` encoded
bytes. -/
theorem fixed_roundtrip (W v : Nat) (rest : List Nat) (h : v < 2 ^ (8 * W)) :
    deserialize W (serialize W v ++ rest) = .ok (v, rest) := by
  have hlen : (serialize W v).length = W := serialize_length W v
  have hge : ¬ (serialize W v ++ rest).length < W := by
    simp [hlen]
  rw [deserialize, if_neg hge, List.take_left' hlen, List.drop_left' hlen,
    leValue_serialize W v h]

/-- Witness for C2 at `W = 4`, `v = 300`, trailing byte `7`. -/
theorem fixed_roundtrip_witness :
    300 < 2 ^ (8 * 4) ∧ rc.detail.deserialize 4 (rc.detail.serialize 4 300 ++ [7]) =
      .ok (300, [7]) :=
  ⟨by norm_num, fixed_roundtrip 4 300 [7] (by norm_num)⟩

/-- Byte `i` of the fixed-width encoding holds bits `[8i, 8i+8)`. -/
theorem serialize_getD : ∀ W v i, i < W →
    (serialize W v).getD i 0 = v / 2 ^ (8 * i) % 256 := by
  intro W
  induction W with
  | zero => intro v i hi; omega
  | succ W ih =>
    intro v i hi
    cases i with
    | zero => simp [serialize]
    | succ i =>
      rw [serialize]
      show (serialize W (v / 256)).getD i 0 = _
      rw [ih (v / 256) i (by omega)]
      rw [Nat.div_div_eq_div_mul]
      congr 2
      rw [Nat.mul_succ, Nat.add_comm, pow_add]
      norm_num

/-- C6: the fixed-width encoder writes exactly `W` bytes in little-endian
order, byte `i` holding bits `[8i, 8i+8)` of the value; in particular
`serialize` of `300` at width 4 gives `[0x2C, 0x01, 0x00, 0x00]`. -/
theorem fixed_layout :
    (∀ W v, (serialize W v).length = W) ∧
    (∀ W v i, i < W → (serialize W v).getD i 0 = v / 2 ^ (8 * i) % 256) ∧
    serialize 4 300 = [0x2C, 0x01, 0x00, 0x00] :=
  ⟨serialize_length, serialize_getD, rfl⟩

/-- Witness for C6 at `W = 4`, `v = 300`, byte index `1`. -/
theorem fixed_layout_witness :
    1 < 4 ∧ (rc.detail.serialize 4 300).getD 1 0 = 300 / 2 ^ (8 * 1) % 256 :=
  ⟨by norm_num, fixed_layout.2.1 4 300 1 (by norm_num)⟩

/-- C7: fixed-width decoding from an input of fewer than `W` bytes fails
with `Truncated`, whatever the bytes are. -/
theorem fixed_truncation (W : Nat) (input : List Nat) (h : input.length < W) :
    deserialize W input = .error .Truncated := by
  rw [deserialize, if_pos h]

/-- Witness for C7 at `W = 4` with a 2-byte input. -/
theorem fixed_truncation_witness :
    ([1, 2] : List Nat).length < 4 ∧
      rc.detail.deserialize 4 [1, 2] = .error .Truncated :=
  ⟨by norm_num, fixed_truncation 4 [1, 2] (by norm_num)⟩

/-- Decoding as many compact elements as a list holds, from that list's
element-wise compact encoding followed by `rest`, reproduces the list. -/
theorem deserializeElems_serializeElems (W : Nat) :
    ∀ (l rest : List Nat), (∀ x ∈ l, x < 2 ^ W) →
      deserializeElems W l.length (serializeElems l ++ rest) = .ok (l, rest) := by
  intro l
  induction l with
  | nil => intro rest _; rfl
  | cons x xs ih =>
    intro rest hmem
    have hx : x < 2 ^ W := hmem x (by simp)
    have hdc := deserializeCompact_serializeCompact W x (serializeElems xs ++ rest) hx
    have hxs := ih rest (fun y hy => hmem y (List.mem_cons_of_mem x hy))
    show deserializeElems W (xs.length + 1)
        ((serializeCompact x ++ serializeElems xs) ++ rest) = _
    rw [List.append_assoc]
    simp only [deserializeElems, hdc, hxs]

/-- C3: the range overloads of the compact codec round-trip every list of
representable values (the compact-encoded count, then each element); in
particular `[1, 2, 300]` encodes to `[0x03, 0x01, 0x02, 0xAC, 0x02]` and
that byte stream decodes back to `[1, 2, 300]`. -/
theorem compact_range_roundtrip :
    (∀ (W : Nat) (l : List Nat), l.length < 2 ^ 64 → (∀ x ∈ l, x < 2 ^ W) →
      deserializeCompactRange W (serializeCompactRange l) = .ok (l, [])) ∧
    serializeCompactRange [1, 2, 300] = [0x03, 0x01, 0x02, 0xAC, 0x02] ∧
    deserializeCompactRange 32 [0x03, 0x01, 0x02, 0xAC, 0x02] = .ok ([1, 2, 300], []) := by
  refine ⟨?_, ?_, rfl⟩
  · intro W l hlen hmem
    have hcount := deserializeCompact_serializeCompact 64 l.length (serializeElems l) hlen
    have helems := deserializeElems_serializeElems W l [] hmem
    rw [List.append_nil] at helems
    rw [serializeCompactRange]
    simp only [deserializeCompactRange, hcount, helems]
  · set_option maxRecDepth 4000 in
    simp [serializeCompactRange, serializeElems, serializeCompact]

/-- Witness for C3 at `W = 16` on the list `[1, 2, 300]`. -/
theorem compact_range_roundtrip_witness :
    ([1, 2, 300] : List Nat).length < 2 ^ 64 ∧
      rc.detail.deserializeCompactRange 16 (rc.detail.serializeCompactRange [1, 2, 300]) =
        .ok ([1, 2, 300], []) :=
  ⟨by norm_num, compact_range_roundtrip.1 16 [1, 2, 300] (by norm_num) (by decide)⟩

/-- The compact encoding of `v` has exactly `max 1 (ceil (bitLength v / 7))`
bytes, where the bit length of `v` is `Nat.size v`. -/
theorem serializeCompact_length_size :
    ∀ fuel v, v ≤ fuel → (serializeCompact v).length = max 1 ((Nat.size v + 6) / 7) := by
  intro fuel
  induction fuel with
  | zero =>
    intro v hv
    interval_cases v
    rw [serializeCompact]
    simp [Nat.size_zero]
  | succ f ih =>
    intro v hv
    rw [serializeCompact]
    by_cases h : v < 128
    · rw [if_pos h]
      have hs : Nat.size v ≤ 7 := Nat.size_le.mpr (by norm_num; omega)
      simp only [List.length_cons, List.length_nil]
      omega
    · rw [if_neg h]
      have hs8 : 8 ≤ Nat.size v := by
        by_contra hcon
        have h7 : v < 2 ^ 7 := Nat.size_le.mp (by omega)
        norm_num at h7
        omega
      have hsize : Nat.size (v / 128) = Nat.size v - 7 := by
        apply Nat.le_antisymm
        · apply Nat.size_le.mpr
          have hv2 : v < 2 ^ (Nat.size v - 7) * 128 := by
            calc v < 2 ^ Nat.size v := Nat.lt_size_self v
              _ = 2 ^ (Nat.size v - 7) * 128 := by
                have : Nat.size v - 7 + 7 = Nat.size v := by omega
                rw [← this, pow_add]
                norm_num
          exact (Nat.div_lt_iff_lt_mul (by norm_num)).mpr hv2
        · have h1 : v / 128 < 2 ^ Nat.size (v / 128) := Nat.lt_size_self _
          have hv3 : v < 2 ^ (Nat.size (v / 128) + 7) := by
            calc v < 128 * (v / 128) + 128 := by omega
              _ = 128 * (v / 128 + 1) := by ring
              _ ≤ 128 * 2 ^ Nat.size (v / 128) := Nat.mul_le_mul_left 128 (by omega)
              _ = 2 ^ (Nat.size (v / 128) + 7) := by
                rw [pow_add]
                norm_num
                ring
          have := Nat.size_le.mpr hv3
          omega
      have hlt : v / 128 < v := Nat.div_lt_self (by omega) (by omega)
      show (serializeCompact (v / 128)).length + 1 = _
      rw [ih (v / 128) (by omega), hsize]
      omega

/-- C4: the number of bytes the compact encoder emits for `v` equals
`max 1 (ceil (bitLength v / 7))`; in particular `0` encodes as the single
byte `0x00`. -/
theorem compact_minimality :
    (∀ v, (serializeCompact v).length = max 1 ((Nat.size v + 6) / 7)) ∧
    serializeCompact 0 = [0x00] :=
  ⟨fun v => serializeCompact_length_size v v le_rfl, by rw [serializeCompact]; norm_num⟩

/-- If every byte of the input has the continuation bit set and the group
bound has not yet been reached when the input runs out, the group loop
fails with `Truncated`. -/
theorem readGroups_all_cont_truncated (W : Nat) :
    ∀ (input : List Nat) fuel shift acc, (∀ b ∈ input, 128 ≤ b) →
      input.length < fuel →
      readGroups W fuel input shift acc = .error .Truncated := by
  intro input
  induction input with
  | nil =>
    intro fuel shift acc _ hlen
    match fuel, hlen with
    | f + 1, _ => rfl
  | cons b rest ih =>
    intro fuel shift acc hmem hlen
    match fuel, hlen with
    | f + 1, hlen =>
      have hb : 128 ≤ b := hmem b (by simp)
      rw [readGroups, if_neg (by omega)]
      exact ih f (shift + 7) _ (fun y hy => hmem y (List.mem_cons_of_mem b hy))
        (by simpa using hlen)

/-- If the first `fuel` bytes of the input all have the continuation bit
set, the group loop exhausts its group budget and fails with `Overflow`. -/
theorem readGroups_fuel_overflow (W : Nat) :
    ∀ fuel (input : List Nat) shift acc, (∀ b ∈ input.take fuel, 128 ≤ b) →
      fuel ≤ input.length →
      readGroups W fuel input shift acc = .error .Overflow := by
  intro fuel
  induction fuel with
  | zero => intro input shift acc _ _; rfl
  | succ f ih =>
    intro input shift acc hmem hlen
    match input, hlen with
    | b :: rest, hlen =>
      have hb : 128 ≤ b := hmem b (by simp)
      rw [readGroups, if_neg (by omega)]
      exact ih rest (shift + 7) _
        (fun y hy => hmem y (by simp [List.take_succ_cons, hy]))
        (by simpa using hlen)

/-- On a well-terminated stream (every byte of `bs` continues, `b` ends the
value), the group loop either exhausts its budget (`Overflow`), or decodes
the whole stream and checks the accumulated value against the width. -/
theorem readGroups_terminated (W : Nat) :
    ∀ (bs : List Nat) (b : Nat) fuel shift acc, (∀ x ∈ bs, 128 ≤ x) → b < 128 →
      readGroups W fuel (bs ++ [b]) shift acc =
        if bs.length + 1 ≤ fuel then
          if acc + compactValue (bs ++ [b]) * 2 ^ shift < 2 ^ W then
            .ok (acc + compactValue (bs ++ [b]) * 2 ^ shift, [])
          else .error .Overflow
        else .error .Overflow := by
  intro bs
  induction bs with
  | nil =>
    intro b fuel shift acc _ hb
    cases fuel with
    | zero => simp [readGroups]
    | succ f =>
      show readGroups W (f + 1) (b :: []) shift acc = _
      rw [readGroups, if_pos hb]
      simp [compactValue]
  | cons x xs ih =>
    intro b fuel shift acc hmem hb
    cases fuel with
    | zero => simp [readGroups]
    | succ f =>
      have hx : 128 ≤ x := hmem x (by simp)
      show readGroups W (f + 1) (x :: (xs ++ [b])) shift acc = _
      rw [readGroups, if_neg (by omega)]
      rw [ih b f (shift + 7) (acc + x % 128 * 2 ^ shift)
        (fun y hy => hmem y (List.mem_cons_of_mem x hy)) hb]
      have hval : acc + x % 128 * 2 ^ shift + compactValue (xs ++ [b]) * 2 ^ (shift + 7)
          = acc + compactValue ((x :: xs) ++ [b]) * 2 ^ shift := by
        have hcv : compactValue ((x :: xs) ++ [b])
            = x % 128 + 128 * compactValue (xs ++ [b]) := rfl
        rw [hcv, pow_add]
        ring
      rw [hval]
      exact if_congr (by simp only [List.length_cons]; omega) rfl rfl

/-- Counterexample to C5 as stated: the 3-byte stream `[0x80, 0x80, 0x80]`
exhausts the input with the continuation bit still set, yet decoding at
width 8 fails with `Overflow` (the group-count bound `maxCompactGroups 8 = 3`
fires first), not `Truncated`. -/
theorem compact_truncation_counterexample :
    deserializeCompact 8 [0x80, 0x80, 0x80] = .error .Overflow ∧
    deserializeCompact 8 [0x80, 0x80, 0x80] ≠ .error .Truncated :=
  ⟨rfl, fun h => SerError.noConfusion (Except.error.inj h)⟩

/-- C5 (amended): a byte stream of fewer than `maxCompactGroups W` bytes in
which every byte has the continuation bit set fails with `Truncated`; and a
well-terminated compact stream whose accumulated value has set bits beyond
width `W` fails with `Overflow`. -/
theorem compact_truncation_overflow :
    (∀ (W : Nat) (input : List Nat), (∀ b ∈ input, 128 ≤ b) →
      input.length < maxCompactGroups W →
      deserializeCompact W input = .error .Truncated) ∧
    (∀ (W : Nat) (bs : List Nat) (b : Nat), (∀ x ∈ bs, 128 ≤ x) → b < 128 →
      2 ^ W ≤ compactValue (bs ++ [b]) →
      deserializeCompact W (bs ++ [b]) = .error .Overflow) := by
  constructor
  · intro W input hmem hlen
    exact readGroups_all_cont_truncated W input (maxCompactGroups W) 0 0 hmem hlen
  · intro W bs b hmem hb hof
    rw [deserializeCompact, readGroups_terminated W bs b (maxCompactGroups W) 0 0 hmem hb]
    have hnot : ¬ (0 + compactValue (bs ++ [b]) * 2 ^ 0 < 2 ^ W) := by
      simp only [Nat.zero_add, pow_zero, Nat.mul_one]
      omega
    by_cases hc : bs.length + 1 ≤ maxCompactGroups W
    · rw [if_pos hc, if_neg hnot]
    · rw [if_neg hc]

/-- Witness for the amended C5: a 2-byte all-continuation stream at width 8
fails `Truncated`; the well-terminated stream `[0x82, 0x82, 0x04]` at width
8 accumulates `65794 ≥ 2 ^ 8` and fails `Overflow`. -/
theorem compact_truncation_overflow_witness :
    rc.detail.deserializeCompact 8 [0x80, 0x80] = .error .Truncated ∧
    rc.detail.deserializeCompact 8 ([0x82, 0x82] ++ [0x04]) = .error .Overflow :=
  ⟨compact_truncation_overflow.1 8 [0x80, 0x80] (by decide) (by decide),
   compact_truncation_overflow.2 8 [0x82, 0x82] 0x04 (by decide) (by decide) (by decide)⟩

/-- C8: an input whose first `maxCompactGroups W` bytes all have the
continuation bit set — so that more than `ceil(W/7) + 1` groups would be
required — is rejected with `Overflow` rather than being read further. -/
theorem compact_group_bound (W : Nat) (input : List Nat)
    (hmem : ∀ b ∈ input.take (maxCompactGroups W), 128 ≤ b)
    (hlen : maxCompactGroups W ≤ input.length) :
    deserializeCompact W input = .error .Overflow :=
  readGroups_fuel_overflow W (maxCompactGroups W) input 0 0 hmem hlen

/-- Witness for C8 at width 8 on a 3-byte all-continuation input. -/
theorem compact_group_bound_witness :
    rc.detail.maxCompactGroups 8 ≤ ([0xC8, 0xC8, 0xC8] : List Nat).length ∧
      rc.detail.deserializeCompact 8 [0xC8, 0xC8, 0xC8] = .error .Overflow :=
  ⟨by decide, compact_group_bound 8 [0xC8, 0xC8, 0xC8] (by decide) (by decide)⟩

/-- C10: a `SerializationException` constructed from message `m` returns `m`
from both `message()` and `what()`. -/
theorem exception_message (m : String) :
    (SerializationException.mk m).message = m ∧ (SerializationException.mk m).what = m :=
  ⟨rfl, rfl⟩

end rc.detail
